import Mathlib

/-!
Verification of the path-template engine of `ngx-typesafe-routes`.

The definitions below are a shallow embedding of the runtime code in
`src/projects/typesafe-routes/src/lib/types/route-registry.ts`,
`src/lib/inputs/route-inputs.ts`, `src/lib/services/typed-activated-route-service.ts`
and the `TypedRouterService` file.  JavaScript strings are modelled as
`String`/`List Char`, objects as association lists in insertion order,
and the JS builtins used by the code (`String.prototype.replace` with a
string pattern, `encodeURIComponent`, `URLSearchParams`, the regexes
`/:(\w+)/g`, `/\/+/g`, `/^\//` and the pattern built by `isActive`)
are modelled explicitly.
-/

namespace TypesafeRoutes

/-- Character class of the JS regex `\w`: ASCII letters, digits and underscore. -/
def wordChar (c : Char) : Bool :=
  c.isAlphanum || c == '_'

/-- Uppercase hexadecimal digit for a nibble (used by percent-encoding). -/
def hexDigit (n : Nat) : Char :=
  let m := n % 16
  if m < 10 then Char.ofNat (48 + m) else Char.ofNat (55 + m)

/-- Characters that `encodeURIComponent` leaves unescaped:
`A-Z a-z 0-9 - _ . ! ~ * ' ( )`. -/
def uriUnreserved (c : Char) : Bool :=
  c.isAlphanum || c == '-' || c == '_' || c == '.' || c == '!' || c == '~' ||
    c == '*' || c == '\'' || c == '(' || c == ')'

/-- UTF-8 bytes of a character (as natural numbers below 256). -/
def utf8Bytes (c : Char) : List Nat :=
  let n := c.toNat
  if n < 0x80 then [n]
  else if n < 0x800 then [0xC0 + n / 64, 0x80 + n % 64]
  else if n < 0x10000 then [0xE0 + n / 4096, 0x80 + n / 64 % 64, 0x80 + n % 64]
  else [0xF0 + n / 262144, 0x80 + n / 4096 % 64, 0x80 + n / 64 % 64, 0x80 + n % 64]

/-- Percent-encoding of one byte, e.g. `58 ↦ "%3A"`. -/
def pctByte (b : Nat) : List Char :=
  ['%', hexDigit (b / 16), hexDigit b]

/-- Model of the JS builtin `encodeURIComponent`, on `List Char`. -/
def encodeL (s : List Char) : List Char :=
  s.flatMap fun c => if uriUnreserved c then [c] else (utf8Bytes c).flatMap pctByte

/-- Model of the JS builtin `encodeURIComponent`. -/
def encodeURIComponent (s : String) : String :=
  String.mk (encodeL s.data)

/-- Scanner for the global regex `/:(\w+)/g`: yields the captured `\w+` runs in
left-to-right order.  The optional accumulator holds the (reversed) word run
currently being matched after a `:`. -/
def scanAux : Option (List Char) → List Char → List (List Char)
  | none, [] => []
  | some acc, [] => if acc.isEmpty then [] else [acc.reverse]
  | none, c :: cs => if c == ':' then scanAux (some []) cs else scanAux none cs
  | some acc, c :: cs =>
    if wordChar c then scanAux (some (c :: acc)) cs
    else if acc.isEmpty then scanAux (if c == ':' then some [] else none) cs
    else acc.reverse :: scanAux (if c == ':' then some [] else none) cs

/-- Embedding of `getParamNames` (route-registry.ts):
`path.match(/:(\w+)/g)` mapped over `m => m.slice(1)`, or `[]` when no match. -/
def getParamNames (path : String) : List String :=
  (scanAux none path.data).map String.mk

/-- Model of JS `String.prototype.replace` with a *string* pattern: replaces only
the first (leftmost) occurrence; returns the input unchanged when there is no
occurrence.  (The patterns used by the code are always nonempty.) -/
def replaceFirstL (pat rep : List Char) : List Char → List Char
  | [] => []
  | c :: cs =>
    if pat.isPrefixOf (c :: cs) then rep ++ (c :: cs).drop pat.length
    else c :: replaceFirstL pat rep cs

/-- String-level wrapper for `replaceFirstL`. -/
def replaceFirst (pat rep s : String) : String :=
  String.mk (replaceFirstL pat.data rep.data s.data)

/-- Model of `s.startsWith "/"`. -/
def startsWithSlash (s : String) : Bool :=
  match s.data with
  | '/' :: _ => true
  | _ => false

/-- Embedding of `buildPath` (route-registry.ts): for each entry of `params`, in
iteration order, replaces the first occurrence of `":" ++ key` with the
percent-encoded value, then forces a leading slash. -/
def buildPath (path : String) (params : List (String × String)) : String :=
  let result := params.foldl
    (fun acc kv => replaceFirst (":" ++ kv.1) (encodeURIComponent kv.2) acc) path
  if startsWithSlash result then result else "/" ++ result

/-- JS runtime values that can sit in the `Record<string, unknown>` passed to
`validateParams`. -/
inductive JsValue where
  | null
  | undef
  | str (s : String)
  | num (n : Int)
  | bool (b : Bool)
  deriving DecidableEq, Repr

/-- Property names every plain JS object inherits from `Object.prototype`:
the `in` operator sees these even when they are not own keys, and the
inherited values (methods, or the prototype object for `__proto__`) are never
`null` or `undefined`. -/
def objectProtoProps : List String :=
  ["constructor", "hasOwnProperty", "isPrototypeOf", "propertyIsEnumerable",
    "toLocaleString", "toString", "valueOf", "__proto__",
    "__defineGetter__", "__defineSetter__", "__lookupGetter__",
    "__lookupSetter__"]

/-- Embedding of `validateParams` (route-registry.ts): extracts the required
names with the same regex as `getParamNames`, then returns `false` as soon as
`!(param in params) || params[param] === undefined || params[param] === null`
holds for a required name, and `true` otherwise.  An own key (the association
list) shadows the prototype; for a name that is not an own key, `in` still
sees the properties inherited from `Object.prototype`, whose values are never
`undefined` or `null`.  It is a total function (never throws). -/
def validateParams (path : String) (params : List (String × JsValue)) : Bool :=
  (getParamNames path).all fun name =>
    match params.lookup name with
    | none => objectProtoProps.contains name
    | some v => !(v == JsValue.undef) && !(v == JsValue.null)

/-- Split a character list on `'/'` (model of JS `template.split("/")`);
always returns at least one (possibly empty) segment. -/
def splitSlash : List Char → List (List Char)
  | [] => [[]]
  | c :: cs =>
    if c == '/' then [] :: splitSlash cs
    else
      match splitSlash cs with
      | [] => [[c]]
      | s :: ss => (c :: s) :: ss

/-- Modelled from the spec: for a non-empty segment whose first character is
`:`, yield the remainder as a parameter name; otherwise skip the segment. -/
def segExtract (seg : List Char) : Option String :=
  match seg with
  | [] => none
  | c :: rest => if c == ':' then some (String.mk rest) else none

/-- Modelled from the spec: the split-based description of parameter-name
extraction — split on `/`, and for each non-empty segment whose first
character is `:`, yield the remainder, in order. -/
def splitExtract (template : String) : List String :=
  (splitSlash template.data).filterMap segExtract

/-- Characters kept verbatim by `application/x-www-form-urlencoded`
serialization (used by `URLSearchParams.toString`). -/
def formSafe (c : Char) : Bool :=
  c.isAlphanum || c == '*' || c == '-' || c == '.' || c == '_'

/-- Form-urlencoded serialization of one component (space becomes `+`). -/
def formEncodeL (s : List Char) : List Char :=
  s.flatMap fun c =>
    if formSafe c then [c]
    else if c == ' ' then ['+']
    else (utf8Bytes c).flatMap pctByte

/-- Model of `URLSearchParams.set`: overwrite the first pair with the given
key, delete all other pairs with that key; append when the key is absent. -/
def uspSet : List (String × String) → String → String → List (String × String)
  | [], k, v => [(k, v)]
  | p :: rest, k, v =>
    if p.1 == k then (k, v) :: rest.filter (fun q => !(q.1 == k))
    else p :: uspSet rest k v

/-- Serialization of one `key=value` pair of `URLSearchParams.toString`. -/
def uspPairString (p : String × String) : String :=
  String.mk (formEncodeL p.1.data ++ '=' :: formEncodeL p.2.data)

/-- Join query-string fragments with `&`. -/
def joinAmp : List String → String
  | [] => ""
  | [s] => s
  | s :: rest => s ++ "&" ++ joinAmp rest

/-- Model of `URLSearchParams.toString`. -/
def uspToString (pairs : List (String × String)) : String :=
  joinAmp (pairs.map uspPairString)

/-- Values of the `QueryParamValue` union of route-types.ts:
`string | number | boolean | string[] | null | undefined`. -/
inductive QueryVal where
  | str (s : String)
  | num (n : Int)
  | bool (b : Bool)
  | arr (vs : List String)
  | null
  | undef
  deriving DecidableEq, Repr

/-- JS `String(value)` for the scalar query values. -/
def scalarString : QueryVal → String
  | QueryVal.str s => s
  | QueryVal.num n => toString n
  | QueryVal.bool b => if b then "true" else "false"
  | QueryVal.arr _ => ""
  | QueryVal.null => "null"
  | QueryVal.undef => "undefined"

/-- One iteration of `buildUrl`'s loop over the query entries: skip
`null`/`undefined`, append array elements one by one, `set` scalar values. -/
def uspStep (acc : List (String × String)) (kv : String × QueryVal) :
    List (String × String) :=
  match kv.2 with
  | QueryVal.null => acc
  | QueryVal.undef => acc
  | QueryVal.arr vs => vs.foldl (fun a v => a ++ [(kv.1, v)]) acc
  | v => uspSet acc kv.1 (scalarString v)

/-- Embedding of `buildUrl` (route-registry.ts): builds the path, then folds the
query entries into a `URLSearchParams` (skipping `null`/`undefined`, appending
array elements one by one, `set`-ing scalars) and appends `"?" ++ queryString`
when the query string is nonempty. -/
def buildUrl (path : String) (params : List (String × String))
    (queryParams : Option (List (String × QueryVal))) : String :=
  let url := buildPath path params
  match queryParams with
  | none => url
  | some qps =>
    let searchParams := qps.foldl uspStep []
    let queryString := uspToString searchParams
    match queryString.data with
    | [] => url
    | _ => url ++ "?" ++ queryString

/-- Tokens of the matching pattern built by `TypedRouterService.isActive`:
literal characters, and the wildcard `[^/]+` substituted for each `:name`. -/
inductive PatTok where
  | lit (c : Char)
  | wild
  deriving DecidableEq, Repr

/-- States of the scanner that performs
`path.replace(/:(\w+)/g, "[^/]+")`: outside any match, after a pending `:`,
or inside a `\w+` run already replaced by a wildcard. -/
inductive CState where
  | norm
  | pend
  | inw

/-- Scanner performing `path.replace(/:(\w+)/g, "[^/]+")`, producing pattern
tokens. -/
def compileAux : CState → List Char → List PatTok
  | CState.norm, [] => []
  | CState.pend, [] => [PatTok.lit ':']
  | CState.inw, [] => []
  | CState.norm, c :: cs =>
    if c == ':' then compileAux CState.pend cs
    else PatTok.lit c :: compileAux CState.norm cs
  | CState.pend, c :: cs =>
    if wordChar c then PatTok.wild :: compileAux CState.inw cs
    else if c == ':' then PatTok.lit ':' :: compileAux CState.pend cs
    else PatTok.lit ':' :: PatTok.lit c :: compileAux CState.norm cs
  | CState.inw, c :: cs =>
    if wordChar c then compileAux CState.inw cs
    else if c == ':' then compileAux CState.pend cs
    else PatTok.lit c :: compileAux CState.norm cs

/-- Pattern of a path template: each `:name` token replaced by a wildcard. -/
def compileTemplate (s : List Char) : List PatTok :=
  compileAux CState.norm s

/-- Full (anchored at both ends) matching of a token pattern against a string:
a wildcard consumes one or more characters, none of which is `'/'`. -/
def matchToks : List PatTok → List Char → Bool
  | [], s => s.isEmpty
  | PatTok.lit _ :: _, [] => false
  | PatTok.lit c :: ts, d :: ds => c == d && matchToks ts ds
  | PatTok.wild :: ts, s =>
    (List.range s.length).any fun n =>
      ((s.take (n + 1)).all fun c => !(c == '/')) && matchToks ts (s.drop (n + 1))

/-- Start-anchored matching: some prefix of the string matches fully. -/
def matchToksAtStart (ts : List PatTok) (s : List Char) : Bool :=
  (List.range (s.length + 1)).any fun n => matchToks ts (s.take n)

/-- Cut a character list at the first occurrence of `stop` (model of
`s.split(stop)[0]`). -/
def stripAfter (stop : Char) (s : List Char) : List Char :=
  s.takeWhile fun c => !(c == stop)

/-- Embedding of `TypedRouterService.isActive`: builds the pattern
`"/" + path.replace(/:(\w+)/g, "[^/]+")`, strips query string and fragment from
the current URL, and tests the pattern anchored at the start — also at the end
when `exact` is true.  The router's current URL is passed explicitly. -/
def isActive (path : String) (currentUrl : String) (exact : Bool) : Bool :=
  let toks := PatTok.lit '/' :: compileTemplate path.data
  let currentPath := stripAfter '#' (stripAfter '?' currentUrl.data)
  if exact then matchToks toks currentPath else matchToksAtStart toks currentPath

mutual
/-- Angular route nodes as consumed by `buildPathsMap`: an optional path and an
optional children array.  The array of sibling routes is represented by the
mutually defined `RouteForest` (isomorphic to `List RouteNode`). -/
inductive RouteNode where
  | mk (path : Option String) (children : Option RouteForest)
/-- An ordered sequence of sibling route nodes. -/
inductive RouteForest where
  | nil
  | cons (head : RouteNode) (tail : RouteForest)
end

/-- Scanner for the global regex replace `fullPath.replace(/\/+/g, "/")`:
collapses every run of slashes to a single slash.  The Boolean records whether
the previous character was a slash. -/
def collapseAux : Bool → List Char → List Char
  | _, [] => []
  | prevSlash, c :: cs =>
    if c == '/' then
      if prevSlash then collapseAux true cs else '/' :: collapseAux true cs
    else c :: collapseAux false cs

/-- Normalization used by `buildPathsMap`: collapse repeated slashes
(`/\/+/g → "/"`), then strip a single leading slash (`/^\// → ""`). -/
def normalizePath (s : String) : String :=
  match collapseAux false s.data with
  | '/' :: rest => String.mk rest
  | l => String.mk l

/-- The runtime concatenation of `buildPathsMap`:
`prefix ? \`${prefix}/${route.path}\` : route.path`. -/
def runtimeJoin (pre p : String) : String :=
  if pre == "" then p else pre ++ "/" ++ p

/-- Model of `result[k] = k` on a JS object used as a set of path keys:
position of an existing key is kept, new keys are appended. -/
def insertKey (r : List String) (k : String) : List String :=
  if r.contains k then r else r ++ [k]

mutual
/-- Recursion of `buildPathsMap` (route-registry.ts): for each node with a
defined path, join prefix and path, normalize, register (skipping the case
where the normalized path is empty while a prefix is active, and using the
sentinel `"/"` for an empty normalized path), then recurse into children with
the unnormalized full path as the new prefix.  `visitForest` is the `for`
loop over the routes array; `visitNode` is one loop body. -/
def visitForest : RouteForest → String → List String → List String
  | RouteForest.nil, _, result => result
  | RouteForest.cons node rest, pre, result =>
    visitForest rest pre (visitNode node pre result)
def visitNode : RouteNode → String → List String → List String
  | RouteNode.mk none _, _, acc => acc
  | RouteNode.mk (some p) children, pre, acc =>
    let fullPath := runtimeJoin pre p
    let normalized := normalizePath fullPath
    let acc1 :=
      if normalized == "" && !(pre == "") then acc
      else insertKey acc (if normalized == "" then "/" else normalized)
    match children with
    | none => acc1
    | some cs => visitForest cs fullPath acc1
end

/-- Embedding of `buildPathsMap(routes)` with its default arguments. -/
def buildPathsMap (routes : RouteForest) : List String :=
  visitForest routes "" []

/-- Modelled from the spec: `joinSegments(a, b)` returns `b` if `a` is empty,
`a` if `b` is empty, otherwise `a + "/" + b`. -/
def joinSegments (a b : String) : String :=
  if a == "" then b else if b == "" then a else a ++ "/" ++ b

/-- Embedding of the type-level `JoinPath<A, B>` of route-types.ts as a string
function: `A extends "" ? B : B extends "" ? A : \`${A}/${B}\``. -/
def joinPathTy (a b : String) : String :=
  if a == "" then b else if b == "" then a else a ++ "/" ++ b

/-- Error message of the "required" accessors, which carries the missing
parameter's name. -/
def requiredParamMsg (param : String) : String :=
  "Required route parameter \"" ++ param ++ "\" is missing"

/-- Embedding of `getTypedParam` (route-inputs.ts): `paramMap.get(param)`,
`null` modelled as `none`. -/
def getTypedParam (paramMap : List (String × String)) (param : String) :
    Option String :=
  paramMap.lookup param

/-- Embedding of `getRequiredTypedParam` (route-inputs.ts): throws an error
naming the parameter when it is absent; the throw is modelled as
`Except.error`. -/
def getRequiredTypedParam (paramMap : List (String × String)) (param : String) :
    Except String String :=
  match paramMap.lookup param with
  | none => Except.error (requiredParamMsg param)
  | some v => Except.ok v

/-- Embedding of `TypedActivatedRouteService.paramSnapshot`: optional access,
returning the `null` sentinel (`none`) when the parameter is absent. -/
def paramSnapshot (paramMap : List (String × String)) (param : String) :
    Option String :=
  paramMap.lookup param

/-- Embedding of `TypedActivatedRouteService.paramSnapshotRequired`: same
lookup, but a missing parameter raises an error naming the parameter. -/
def paramSnapshotRequired (paramMap : List (String × String)) (param : String) :
    Except String String :=
  match paramMap.lookup param with
  | none => Except.error (requiredParamMsg param)
  | some v => Except.ok v

/-- Occurrence test: does `pat` occur as a contiguous substring of the list?
(Same notion of occurrence as JS `String.prototype.includes` /
`String.prototype.replace` with a string pattern.) -/
def containsSub (pat : List Char) : List Char → Bool
  | [] => pat.isEmpty
  | c :: cs => pat.isPrefixOf (c :: cs) || containsSub pat cs

/-- Segments of a well-formed path template: a literal segment, or a
parameter segment `:name`. -/
inductive Seg where
  | lit (s : String)
  | param (name : String)
  deriving DecidableEq, Repr

/-- Characters of one segment. -/
def segChars : Seg → List Char
  | Seg.lit s => s.data
  | Seg.param n => ':' :: n.data

/-- Join character-list segments with `'/'` (inverse of `splitSlash` on
slash-free segments). -/
def joinSlash : List (List Char) → List Char
  | [] => []
  | [s] => s
  | s :: rest => s ++ '/' :: joinSlash rest

/-- Characters of the template described by a segment list. -/
def templData (segs : List Seg) : List Char :=
  joinSlash (segs.map segChars)

/-- The template string described by a segment list. -/
def templateOfSegs (segs : List Seg) : String :=
  String.mk (templData segs)

/-- Parameter names declared by a segment list, in order. -/
def segNames : List Seg → List String
  | [] => []
  | Seg.lit _ :: rest => segNames rest
  | Seg.param n :: rest => n :: segNames rest

/-- Well-formedness of one segment: literal segments contain neither `':'`
nor `'/'`; parameter names are nonempty runs of word characters. -/
def segWfB : Seg → Bool
  | Seg.lit s => s.data.all fun c => !(c == ':') && !(c == '/')
  | Seg.param n => !n.data.isEmpty && n.data.all wordChar

/-- Well-formedness of a segment list. -/
def segsWfB (segs : List Seg) : Bool :=
  segs.all segWfB

/-- No parameter name is a prefix (in particular a proper prefix) of a
different parameter name. -/
def namesPFB (names : List String) : Bool :=
  names.all fun a => names.all fun b => !(a.data.isPrefixOf b.data) || (a == b)

/-- Intermediate shape of the string during `buildPath`'s substitution fold:
a concatenation of literal chunks and still-unsubstituted `:name` tokens. -/
inductive Piece where
  | lit (s : List Char)
  | param (w : List Char)
  deriving DecidableEq, Repr

/-- Characters denoted by a piece list. -/
def renderP : List Piece → List Char
  | [] => []
  | Piece.lit s :: ps => s ++ renderP ps
  | Piece.param w :: ps => ':' :: (w ++ renderP ps)

/-- Names of the parameter pieces, in order. -/
def pieceParams : List Piece → List (List Char)
  | [] => []
  | Piece.lit _ :: ps => pieceParams ps
  | Piece.param w :: ps => w :: pieceParams ps

/-- Piece corresponding to one segment. -/
def pieceOfSeg : Seg → Piece
  | Seg.lit s => Piece.lit s.data
  | Seg.param n => Piece.param n.data

/-- Pieces of a whole template: segments interleaved with `'/'` literals. -/
def segsToPieces : List Seg → List Piece
  | [] => []
  | [seg] => [pieceOfSeg seg]
  | seg :: rest => pieceOfSeg seg :: Piece.lit ['/'] :: segsToPieces rest

/-- Effect of one substitution step on the piece list: the first parameter
piece named `k` becomes the literal chunk `v`. -/
def stripParam (k v : List Char) : List Piece → List Piece
  | [] => []
  | Piece.lit s :: ps => Piece.lit s :: stripParam k v ps
  | Piece.param w :: ps =>
    if w = k then Piece.lit v :: ps else Piece.param w :: stripParam k v ps

/-- All literal chunks of the piece list are free of `':'`. -/
def LitsColonFree (ps : List Piece) : Prop :=
  ∀ s, Piece.lit s ∈ ps → ∀ c ∈ s, c ≠ ':'

/-! ### Character-level facts -/

theorem wordChar_ne_colon {c : Char} (h : wordChar c = true) : c ≠ ':' := by
  intro hc
  subst hc
  exact absurd h (by decide)

theorem wordChar_ne_slash {c : Char} (h : wordChar c = true) : c ≠ '/' := by
  intro hc
  subst hc
  exact absurd h (by decide)

theorem hexDigit_ne_colon (n : Nat) : hexDigit n ≠ ':' := by
  unfold hexDigit
  have h16 : n % 16 < 16 := Nat.mod_lt _ (by norm_num)
  set m := n % 16 with hm
  interval_cases m <;> decide

theorem encodeL_colonFree (s : List Char) : ∀ c ∈ encodeL s, c ≠ ':' := by
  intro c hc
  simp only [encodeL, List.mem_flatMap] at hc
  obtain ⟨a, _, ha⟩ := hc
  by_cases hu : uriUnreserved a
  · simp only [hu, if_true, List.mem_singleton] at ha
    subst ha
    intro h
    subst h
    exact absurd hu (by decide)
  · simp only [hu, if_false, List.mem_flatMap, Bool.false_eq_true] at ha
    obtain ⟨b, _, hb⟩ := ha
    simp only [pctByte, List.mem_cons, List.mem_singleton] at hb
    rcases hb with h | h | h
    · subst h; decide
    · subst h; exact hexDigit_ne_colon _
    · rcases h with h | h
      · subst h; exact hexDigit_ne_colon _
      · exact absurd h (List.not_mem_nil c)

/-! ### Behaviour of first-occurrence replacement on structured strings -/

theorem replaceFirstL_append (k rep chunk rest : List Char)
    (h : ∀ c ∈ chunk, c ≠ ':') :
    replaceFirstL (':' :: k) rep (chunk ++ rest) =
      chunk ++ replaceFirstL (':' :: k) rep rest := by
  induction chunk with
  | nil => simp
  | cons c cs ih =>
    have hc : c ≠ ':' := h c (List.mem_cons_self c cs)
    have hpf : (':' :: k).isPrefixOf (c :: (cs ++ rest)) = false := by
      simp only [List.isPrefixOf, Bool.and_eq_false_iff]
      left
      simp only [beq_eq_false_iff_ne, ne_eq]
      exact fun h2 => hc h2.symm
    simp only [List.cons_append, replaceFirstL, List.append_eq, hpf,
      Bool.false_eq_true, if_false]
    exact congrArg (c :: ·) (ih fun x hx => h x (List.mem_cons_of_mem c hx))

theorem no_token_overlap {NL : List (List Char)} {k w : List Char}
    (rest : List Char)
    (hpf : ∀ a ∈ NL, ∀ b ∈ NL, a <+: b → a = b)
    (hk : k ∈ NL) (hw : w ∈ NL) (hne : w ≠ k) :
    ¬ k <+: (w ++ rest) := by
  intro hpre
  obtain ⟨t, ht⟩ := hpre
  rcases le_or_lt k.length w.length with hle | hlt
  · have h1 : (k ++ t).take k.length = k := List.take_left k t
    rw [ht, List.take_append_of_le_length hle] at h1
    have : k <+: w := h1 ▸ List.take_prefix k.length w
    exact hne (hpf k hk w hw this).symm
  · have h1 : (w ++ rest).take w.length = w := List.take_left w rest
    rw [← ht, List.take_append_of_le_length (Nat.le_of_lt hlt)] at h1
    have : w <+: k := h1 ▸ List.take_prefix w.length k
    exact hne (hpf w hw k hk this)

theorem replaceFirstL_renderP {NL : List (List Char)} (k v : List Char)
    (hpf : ∀ a ∈ NL, ∀ b ∈ NL, a <+: b → a = b)
    (hkN : k ∈ NL)
    (hNcf : ∀ w ∈ NL, ∀ c ∈ w, c ≠ ':') :
    ∀ ps : List Piece, LitsColonFree ps → (∀ w ∈ pieceParams ps, w ∈ NL) →
      replaceFirstL (':' :: k) v (renderP ps) = renderP (stripParam k v ps) := by
  intro ps
  induction ps with
  | nil => intro _ _; rfl
  | cons p ps ih =>
    intro hlits hparams
    have hlits' : LitsColonFree ps := fun s hs => hlits s (List.mem_cons_of_mem p hs)
    match p with
    | Piece.lit s =>
      have hscf : ∀ c ∈ s, c ≠ ':' := hlits s (List.mem_cons_self _ _)
      have hparams' : ∀ w ∈ pieceParams ps, w ∈ NL := by
        intro w hw
        exact hparams w (by simpa [pieceParams] using hw)
      calc replaceFirstL (':' :: k) v (renderP (Piece.lit s :: ps))
          = replaceFirstL (':' :: k) v (s ++ renderP ps) := rfl
        _ = s ++ replaceFirstL (':' :: k) v (renderP ps) :=
            replaceFirstL_append k v s (renderP ps) hscf
        _ = s ++ renderP (stripParam k v ps) := by rw [ih hlits' hparams']
        _ = renderP (stripParam k v (Piece.lit s :: ps)) := rfl
    | Piece.param w =>
      have hwN : w ∈ NL := hparams w (by simp [pieceParams])
      have hwcf : ∀ c ∈ w, c ≠ ':' := hNcf w hwN
      by_cases hwk : w = k
      · subst hwk
        have hpre : (':' :: w).isPrefixOf (':' :: (w ++ renderP ps)) = true := by
          rw [List.isPrefixOf_iff_prefix, List.cons_prefix_cons]
          exact ⟨rfl, List.prefix_append w (renderP ps)⟩
        have hdrop :
            (':' :: (w ++ renderP ps)).drop (':' :: w).length = renderP ps := by
          simp [List.drop_left]
        calc replaceFirstL (':' :: w) v (renderP (Piece.param w :: ps))
            = replaceFirstL (':' :: w) v (':' :: (w ++ renderP ps)) := rfl
          _ = v ++ (':' :: (w ++ renderP ps)).drop (':' :: w).length := by
              rw [replaceFirstL, if_pos hpre]
          _ = v ++ renderP ps := by rw [hdrop]
          _ = renderP (stripParam w v (Piece.param w :: ps)) := by
              simp [stripParam, renderP]
      · have hnk : ¬ k <+: (w ++ renderP ps) :=
          no_token_overlap (renderP ps) hpf hkN hwN hwk
        have hpre : (':' :: k).isPrefixOf (':' :: (w ++ renderP ps)) = false := by
          rw [Bool.eq_false_iff]
          intro h
          rw [List.isPrefixOf_iff_prefix, List.cons_prefix_cons] at h
          exact hnk h.2
        have hparams' : ∀ u ∈ pieceParams ps, u ∈ NL := by
          intro u hu
          exact hparams u (by simp [pieceParams, hu])
        calc replaceFirstL (':' :: k) v (renderP (Piece.param w :: ps))
            = replaceFirstL (':' :: k) v (':' :: (w ++ renderP ps)) := rfl
          _ = ':' :: replaceFirstL (':' :: k) v (w ++ renderP ps) := by
              rw [replaceFirstL, if_neg (by simp [hpre])]
          _ = ':' :: (w ++ replaceFirstL (':' :: k) v (renderP ps)) := by
              rw [replaceFirstL_append k v w (renderP ps) hwcf]
          _ = ':' :: (w ++ renderP (stripParam k v ps)) := by
              rw [ih hlits' hparams']
          _ = renderP (stripParam k v (Piece.param w :: ps)) := by
              simp [stripParam, renderP, hwk]

theorem pieceParams_stripParam (k v : List Char) (ps : List Piece) :
    pieceParams (stripParam k v ps) = (pieceParams ps).erase k := by
  induction ps with
  | nil => rfl
  | cons p ps ih =>
    match p with
    | Piece.lit s => simpa [stripParam, pieceParams] using ih
    | Piece.param w =>
      by_cases hwk : w = k
      · subst hwk
        simp [stripParam, pieceParams, List.erase_cons]
      · simp [stripParam, pieceParams, List.erase_cons, hwk, ih,
          beq_eq_false_iff_ne]

theorem litsColonFree_stripParam (k v : List Char)
    (hv : ∀ c ∈ v, c ≠ ':') :
    ∀ ps : List Piece, LitsColonFree ps → LitsColonFree (stripParam k v ps) := by
  intro ps
  induction ps with
  | nil => intro _ s hs; simp [stripParam] at hs
  | cons p ps ih =>
    intro h
    have h' : LitsColonFree ps := fun s hs => h s (List.mem_cons_of_mem p hs)
    cases p with
    | lit t =>
      intro s hs
      simp only [stripParam, List.mem_cons] at hs
      rcases hs with h1 | h1
      · have hst : s = t := by simpa using h1
        subst hst
        exact h s (List.mem_cons_self _ _)
      · exact ih h' s h1
    | param w =>
      intro s hs
      by_cases hwk : w = k
      · simp only [stripParam, if_pos hwk, List.mem_cons] at hs
        rcases hs with h1 | h1
        · have hsv : s = v := by simpa using h1
          subst hsv
          exact hv
        · exact h' s h1
      · simp only [stripParam, if_neg hwk, List.mem_cons] at hs
        rcases hs with h1 | h1
        · exact absurd h1 (by simp)
        · exact ih h' s h1

theorem renderP_drop : ∀ (ps : List Piece) (n : Nat),
    LitsColonFree ps → (∀ w ∈ pieceParams ps, ∀ c ∈ w, c ≠ ':') →
    ∃ qs : List Piece, (renderP ps).drop n = renderP qs ∧
      LitsColonFree qs ∧ (pieceParams qs).Sublist (pieceParams ps) := by
  intro ps
  induction ps with
  | nil =>
    intro n _ _
    exact ⟨[], by simp [renderP], fun s hs => absurd hs (List.not_mem_nil _),
      List.Sublist.refl _⟩
  | cons p ps ih =>
    intro n hlits hparams
    have hlits' : LitsColonFree ps := fun s hs => hlits s (List.mem_cons_of_mem p hs)
    cases p with
    | lit s =>
      have hparams' : ∀ w ∈ pieceParams ps, ∀ c ∈ w, c ≠ ':' := by
        intro w hw
        exact hparams w (by simpa [pieceParams] using hw)
      obtain ⟨qs, hq1, hq2, hq3⟩ := ih (n - s.length) hlits' hparams'
      refine ⟨Piece.lit (s.drop n) :: qs, ?_, ?_, ?_⟩
      · show (s ++ renderP ps).drop n = s.drop n ++ renderP qs
        rw [List.drop_append_eq_append_drop, hq1]
      · intro t ht c hc
        rcases List.mem_cons.mp ht with h1 | h1
        · have hts : t = s.drop n := by simpa using h1
          subst hts
          exact hlits s (List.mem_cons_self _ _) c (List.mem_of_mem_drop hc)
        · exact hq2 t h1 c hc
      · show (pieceParams (Piece.lit (s.drop n) :: qs)).Sublist
            (pieceParams (Piece.lit s :: ps))
        simpa [pieceParams] using hq3
    | param w =>
      have hwcf : ∀ c ∈ w, c ≠ ':' := hparams w (by simp [pieceParams])
      have hparams' : ∀ u ∈ pieceParams ps, ∀ c ∈ u, c ≠ ':' := by
        intro u hu
        exact hparams u (by simp [pieceParams, hu])
      cases n with
      | zero =>
        exact ⟨Piece.param w :: ps, by simp, hlits, List.Sublist.refl _⟩
      | succ m =>
        obtain ⟨qs, hq1, hq2, hq3⟩ := ih (m - w.length) hlits' hparams'
        refine ⟨Piece.lit (w.drop m) :: qs, ?_, ?_, ?_⟩
        · show (':' :: (w ++ renderP ps)).drop (m + 1) = w.drop m ++ renderP qs
          rw [List.drop_succ_cons, List.drop_append_eq_append_drop, hq1]
        · intro t ht c hc
          rcases List.mem_cons.mp ht with h1 | h1
          · have htw : t = w.drop m := by simpa using h1
            subst htw
            exact hwcf c (List.mem_of_mem_drop hc)
          · exact hq2 t h1 c hc
        · show (pieceParams (Piece.lit (w.drop m) :: qs)).Sublist (w :: pieceParams ps)
          exact List.Sublist.cons w (by simpa [pieceParams] using hq3)

theorem replaceFirstL_renderP_any (k v : List Char)
    (hv : ∀ c ∈ v, c ≠ ':') :
    ∀ ps : List Piece, LitsColonFree ps →
      (∀ w ∈ pieceParams ps, ∀ c ∈ w, c ≠ ':') →
      ∃ qs : List Piece,
        replaceFirstL (':' :: k) v (renderP ps) = renderP qs ∧
        LitsColonFree qs ∧ (pieceParams qs).Sublist (pieceParams ps) := by
  intro ps
  induction ps with
  | nil =>
    intro _ _
    exact ⟨[], rfl, fun s hs => absurd hs (List.not_mem_nil _),
      List.Sublist.refl _⟩
  | cons p ps ih =>
    intro hlits hparams
    have hlits' : LitsColonFree ps := fun s hs => hlits s (List.mem_cons_of_mem p hs)
    cases p with
    | lit s =>
      have hscf : ∀ c ∈ s, c ≠ ':' := hlits s (List.mem_cons_self _ _)
      have hparams' : ∀ w ∈ pieceParams ps, ∀ c ∈ w, c ≠ ':' := by
        intro w hw
        exact hparams w (by simpa [pieceParams] using hw)
      obtain ⟨qs, hq1, hq2, hq3⟩ := ih hlits' hparams'
      refine ⟨Piece.lit s :: qs, ?_, ?_, ?_⟩
      · show replaceFirstL (':' :: k) v (s ++ renderP ps) = s ++ renderP qs
        rw [replaceFirstL_append k v s (renderP ps) hscf, hq1]
      · intro t ht c hc
        rcases List.mem_cons.mp ht with h1 | h1
        · have hts : t = s := by simpa using h1
          subst hts
          exact hscf c hc
        · exact hq2 t h1 c hc
      · simpa [pieceParams] using hq3
    | param w =>
      have hwcf : ∀ c ∈ w, c ≠ ':' := hparams w (by simp [pieceParams])
      have hparams' : ∀ u ∈ pieceParams ps, ∀ c ∈ u, c ≠ ':' := by
        intro u hu
        exact hparams u (by simp [pieceParams, hu])
      by_cases hm : k.isPrefixOf (w ++ renderP ps) = true
      · have hfire : (':' :: k).isPrefixOf (':' :: (w ++ renderP ps)) = true := by
          simp [List.isPrefixOf, hm]
        have hwlits : LitsColonFree (Piece.lit w :: ps) := by
          intro t ht
          rcases List.mem_cons.mp ht with h1 | h1
          · have htw : t = w := by simpa using h1
            subst htw
            exact hwcf
          · exact hlits' t h1
        have hwparams : ∀ u ∈ pieceParams (Piece.lit w :: ps), ∀ c ∈ u, c ≠ ':' := by
          intro u hu
          exact hparams' u (by simpa [pieceParams] using hu)
        obtain ⟨qs, hq1, hq2, hq3⟩ := renderP_drop (Piece.lit w :: ps) k.length
          hwlits hwparams
        refine ⟨Piece.lit v :: qs, ?_, ?_, ?_⟩
        · show replaceFirstL (':' :: k) v (':' :: (w ++ renderP ps))
              = v ++ renderP qs
          rw [replaceFirstL, if_pos hfire]
          have hlen : (':' :: k).length = k.length + 1 := by simp
          rw [hlen, List.drop_succ_cons]
          have hrw : (w ++ renderP ps) = renderP (Piece.lit w :: ps) := rfl
          rw [hrw, hq1]
        · intro t ht c hc
          rcases List.mem_cons.mp ht with h1 | h1
          · have htv : t = v := by simpa using h1
            subst htv
            exact hv c hc
          · exact hq2 t h1 c hc
        · show (pieceParams (Piece.lit v :: qs)).Sublist (w :: pieceParams ps)
          refine List.Sublist.cons w ?_
          simpa [pieceParams] using hq3
      · have hnofire : (':' :: k).isPrefixOf (':' :: (w ++ renderP ps)) = false := by
          simp only [List.isPrefixOf, beq_self_eq_true, Bool.true_and]
          exact Bool.eq_false_iff.mpr hm
        obtain ⟨qs, hq1, hq2, hq3⟩ := ih hlits' hparams'
        refine ⟨Piece.param w :: qs, ?_, ?_, ?_⟩
        · show replaceFirstL (':' :: k) v (':' :: (w ++ renderP ps))
              = ':' :: (w ++ renderP qs)
          rw [replaceFirstL, if_neg (by simp [hnofire]),
            replaceFirstL_append k v w (renderP ps) hwcf, hq1]
        · intro t ht c hc
          rcases List.mem_cons.mp ht with h1 | h1
          · exact absurd h1 (by simp)
          · exact hq2 t h1 c hc
        · show ((w :: pieceParams qs)).Sublist (w :: pieceParams ps)
          exact List.Sublist.cons₂ w hq3

theorem foldl_replace_renderP_any {NL : List (List Char)}
    (hpf : ∀ a ∈ NL, ∀ b ∈ NL, a <+: b → a = b)
    (hNcf : ∀ w ∈ NL, ∀ c ∈ w, c ≠ ':') :
    ∀ (entries : List (List Char × List Char)) (ps : List Piece),
      LitsColonFree ps → (∀ w ∈ pieceParams ps, w ∈ NL) →
      (pieceParams ps).Nodup →
      (∀ kv ∈ entries, ∀ c ∈ kv.2, c ≠ ':') →
      ∃ qs : List Piece,
        entries.foldl (fun acc kv => replaceFirstL (':' :: kv.1) kv.2 acc)
            (renderP ps) = renderP qs ∧
        LitsColonFree qs ∧
        (pieceParams qs).Sublist (pieceParams ps) ∧
        ∀ kv ∈ entries, kv.1 ∈ NL → kv.1 ∉ pieceParams qs := by
  intro entries
  induction entries with
  | nil =>
    intro ps hlits _ _ _
    exact ⟨ps, rfl, hlits, List.Sublist.refl _,
      fun kv hkv => absurd hkv (List.not_mem_nil kv)⟩
  | cons kv rest ih =>
    intro ps hlits hsubNL hnd hvals
    have hvrest : ∀ kv' ∈ rest, ∀ c ∈ kv'.2, c ≠ ':' :=
      fun kv' h' => hvals kv' (List.mem_cons_of_mem kv h')
    have hvhead : ∀ c ∈ kv.2, c ≠ ':' := hvals kv (List.mem_cons_self kv rest)
    have hpcf : ∀ w ∈ pieceParams ps, ∀ c ∈ w, c ≠ ':' :=
      fun w hw => hNcf w (hsubNL w hw)
    rw [List.foldl_cons]
    by_cases hk : kv.1 ∈ NL
    · rw [replaceFirstL_renderP kv.1 kv.2 hpf hk hNcf ps hlits hsubNL]
      have hstrip : pieceParams (stripParam kv.1 kv.2 ps)
          = (pieceParams ps).erase kv.1 := pieceParams_stripParam kv.1 kv.2 ps
      obtain ⟨qs, hq1, hq2, hq3, hq4⟩ := ih (stripParam kv.1 kv.2 ps)
        (litsColonFree_stripParam kv.1 kv.2 hvhead ps hlits)
        (by rw [hstrip]; exact fun w hw => hsubNL w (List.mem_of_mem_erase hw))
        (by rw [hstrip]; exact (List.erase_sublist _ _).nodup hnd)
        hvrest
      refine ⟨qs, hq1, hq2, ?_, ?_⟩
      · exact hq3.trans (hstrip ▸ List.erase_sublist kv.1 (pieceParams ps))
      · intro kv' hkv' hkN
        rcases List.mem_cons.mp hkv' with h1 | h1
        · subst h1
          intro hmem
          have hmem2 : kv'.1 ∈ pieceParams (stripParam kv'.1 kv'.2 ps) :=
            hq3.subset hmem
          rw [hstrip] at hmem2
          exact (hnd.mem_erase_iff.mp hmem2).1 rfl
        · exact hq4 kv' h1 hkN
    · obtain ⟨qs0, hq01, hq02, hq03⟩ :=
        replaceFirstL_renderP_any kv.1 kv.2 hvhead ps hlits hpcf
      rw [hq01]
      obtain ⟨qs, hq1, hq2, hq3, hq4⟩ := ih qs0 hq02
        (fun w hw => hsubNL w (hq03.subset hw))
        (hq03.nodup hnd)
        hvrest
      refine ⟨qs, hq1, hq2, hq3.trans hq03, ?_⟩
      intro kv' hkv' hkN
      rcases List.mem_cons.mp hkv' with h1 | h1
      · subst h1
        exact absurd hkN hk
      · exact hq4 kv' h1 hkN

theorem renderP_colonFree : ∀ ps : List Piece, LitsColonFree ps →
    pieceParams ps = [] → ∀ c ∈ renderP ps, c ≠ ':' := by
  intro ps
  induction ps with
  | nil => intro _ _ c hc; exact absurd hc (List.not_mem_nil c)
  | cons p ps ih =>
    intro hlits hparams c hc
    have hlits' : LitsColonFree ps := fun s hs => hlits s (List.mem_cons_of_mem p hs)
    match p with
    | Piece.lit s =>
      have hparams' : pieceParams ps = [] := by simpa [pieceParams] using hparams
      rcases List.mem_append.mp hc with h | h
      · exact hlits s (List.mem_cons_self _ _) c h
      · exact ih hlits' hparams' c h
    | Piece.param w => simp [pieceParams] at hparams

theorem containsSub_colon_eq_false (k : List Char) :
    ∀ s : List Char, (∀ c ∈ s, c ≠ ':') → containsSub (':' :: k) s = false := by
  intro s
  induction s with
  | nil => intro _; rfl
  | cons c cs ih =>
    intro h
    have hc : c ≠ ':' := h c (List.mem_cons_self c cs)
    simp only [containsSub, Bool.or_eq_false_iff]
    refine ⟨?_, ih fun x hx => h x (List.mem_cons_of_mem c hx)⟩
    simp only [List.isPrefixOf, Bool.and_eq_false_iff]
    left
    simp only [beq_eq_false_iff_ne, ne_eq]
    exact fun h2 => hc h2.symm

/-! ### Segment lists, their rendering and their parameter names -/

theorem renderP_segsToPieces : ∀ segs : List Seg,
    renderP (segsToPieces segs) = templData segs := by
  intro segs
  induction segs with
  | nil => rfl
  | cons seg rest ih =>
    cases rest with
    | nil =>
      cases seg with
      | lit s =>
        simp [segsToPieces, pieceOfSeg, renderP, templData, segChars, joinSlash]
      | param n =>
        simp [segsToPieces, pieceOfSeg, renderP, templData, segChars, joinSlash]
    | cons s2 rest2 =>
      cases seg with
      | lit s =>
        simp only [segsToPieces, pieceOfSeg, renderP, List.map_cons, templData,
          joinSlash, segChars] at ih ⊢
        simp [ih]
      | param n =>
        simp only [segsToPieces, pieceOfSeg, renderP, List.map_cons, templData,
          joinSlash, segChars] at ih ⊢
        simp [ih]

theorem pieceParams_segsToPieces : ∀ segs : List Seg,
    pieceParams (segsToPieces segs) = (segNames segs).map String.data := by
  intro segs
  induction segs with
  | nil => rfl
  | cons seg rest ih =>
    cases rest with
    | nil =>
      cases seg with
      | lit s => simp [segsToPieces, pieceOfSeg, pieceParams, segNames]
      | param n => simp [segsToPieces, pieceOfSeg, pieceParams, segNames]
    | cons s2 rest2 =>
      cases seg with
      | lit s =>
        simpa [segsToPieces, pieceOfSeg, pieceParams, segNames] using ih
      | param n =>
        simpa [segsToPieces, pieceOfSeg, pieceParams, segNames] using ih

theorem litWf_colonFree {s : String} (h : segWfB (Seg.lit s) = true) :
    ∀ c ∈ s.data, c ≠ ':' := by
  intro c hc
  simp only [segWfB, List.all_eq_true] at h
  have := h c hc
  simp only [Bool.and_eq_true, beq_eq_false_iff_ne, ne_eq,
    Bool.not_eq_true', beq_eq_false_iff_ne] at this
  exact this.1

theorem litWf_slashFree {s : String} (h : segWfB (Seg.lit s) = true) :
    ∀ c ∈ s.data, c ≠ '/' := by
  intro c hc
  simp only [segWfB, List.all_eq_true] at h
  have := h c hc
  simp only [Bool.and_eq_true, Bool.not_eq_true', beq_eq_false_iff_ne] at this
  exact this.2

theorem paramWf_word {n : String} (h : segWfB (Seg.param n) = true) :
    ∀ c ∈ n.data, wordChar c = true := by
  intro c hc
  simp only [segWfB, Bool.and_eq_true, List.all_eq_true] at h
  exact h.2 c hc

theorem paramWf_ne_nil {n : String} (h : segWfB (Seg.param n) = true) :
    n.data ≠ [] := by
  simp only [segWfB, Bool.and_eq_true, Bool.not_eq_true'] at h
  intro hn
  rw [hn] at h
  simp at h

theorem segsWfB_cons {seg : Seg} {rest : List Seg}
    (h : segsWfB (seg :: rest) = true) :
    segWfB seg = true ∧ segsWfB rest = true := by
  simpa [segsWfB, List.all_cons, Bool.and_eq_true] using h

theorem litsColonFree_segsToPieces : ∀ segs : List Seg, segsWfB segs = true →
    LitsColonFree (segsToPieces segs) := by
  intro segs
  induction segs with
  | nil => intro _ s hs; simp [segsToPieces] at hs
  | cons seg rest ih =>
    intro hwf
    obtain ⟨hseg, hrest⟩ := segsWfB_cons hwf
    cases rest with
    | nil =>
      intro s hs
      cases seg with
      | lit t =>
        simp only [segsToPieces, pieceOfSeg, List.mem_singleton] at hs
        have hst : s = t.data := by simpa using hs
        subst hst
        exact litWf_colonFree hseg
      | param n =>
        simp only [segsToPieces, pieceOfSeg, List.mem_singleton] at hs
        exact absurd hs (by simp)
    | cons s2 rest2 =>
      intro s hs
      cases seg with
      | lit t =>
        simp only [segsToPieces, pieceOfSeg, List.mem_cons] at hs
        rcases hs with h1 | h1 | h1
        · have hst : s = t.data := by simpa using h1
          subst hst
          exact litWf_colonFree hseg
        · have hst : s = ['/'] := by simpa using h1
          subst hst
          intro c hc
          have : c = '/' := by simpa using hc
          subst this
          decide
        · exact ih hrest s h1
      | param n =>
        simp only [segsToPieces, pieceOfSeg, List.mem_cons] at hs
        rcases hs with h1 | h1 | h1
        · exact absurd h1 (by simp)
        · have hst : s = ['/'] := by simpa using h1
          subst hst
          intro c hc
          have : c = '/' := by simpa using hc
          subst this
          decide
        · exact ih hrest s h1

/-! ### The regex scanner on well-formed templates -/

theorem scanAux_none_chunk : ∀ (chunk rest : List Char),
    (∀ c ∈ chunk, c ≠ ':') →
    scanAux none (chunk ++ rest) = scanAux none rest := by
  intro chunk
  induction chunk with
  | nil => intro rest _; rfl
  | cons c cs ih =>
    intro rest h
    have hc : (c == ':') = false := by
      simp [beq_eq_false_iff_ne]
      exact h c (List.mem_cons_self c cs)
    simp only [List.cons_append, scanAux, hc, Bool.false_eq_true, if_false]
    exact ih rest fun x hx => h x (List.mem_cons_of_mem c hx)

theorem scanAux_some_word : ∀ (w acc rest : List Char),
    (∀ c ∈ w, wordChar c = true) →
    scanAux (some acc) (w ++ rest) = scanAux (some (w.reverse ++ acc)) rest := by
  intro w
  induction w with
  | nil => intro acc rest _; rfl
  | cons c cs ih =>
    intro acc rest h
    have hc : wordChar c = true := h c (List.mem_cons_self c cs)
    simp only [List.cons_append, scanAux, hc, if_true, List.append_eq]
    rw [ih (c :: acc) rest fun x hx => h x (List.mem_cons_of_mem c hx)]
    simp

theorem scan_templData : ∀ segs : List Seg, segsWfB segs = true →
    scanAux none (templData segs) = (segNames segs).map String.data := by
  intro segs
  induction segs with
  | nil => intro _; rfl
  | cons seg rest ih =>
    intro hwf
    obtain ⟨hseg, hrest⟩ := segsWfB_cons hwf
    cases rest with
    | nil =>
      cases seg with
      | lit s =>
        have h1 : templData [Seg.lit s] = s.data ++ [] := by
          simp [templData, joinSlash, segChars]
        rw [h1, scanAux_none_chunk s.data [] (litWf_colonFree hseg)]
        rfl
      | param n =>
        have h1 : templData [Seg.param n] = ':' :: (n.data ++ []) := by
          simp [templData, joinSlash, segChars]
        rw [h1]
        have h2 : scanAux none (':' :: (n.data ++ [])) =
            scanAux (some []) (n.data ++ []) := by simp [scanAux]
        rw [h2, scanAux_some_word n.data [] [] (paramWf_word hseg)]
        have h3 : (n.data.reverse ++ []).isEmpty = false := by
          simp [List.isEmpty_iff, paramWf_ne_nil hseg]
        simp only [scanAux, h3, Bool.false_eq_true, if_false]
        simp [segNames]
    | cons s2 rest2 =>
      have hjoin : templData (seg :: s2 :: rest2)
          = segChars seg ++ '/' :: templData (s2 :: rest2) := by
        simp [templData, joinSlash]
      cases seg with
      | lit s =>
        rw [hjoin]
        rw [scanAux_none_chunk (segChars (Seg.lit s)) _ (litWf_colonFree hseg)]
        have h2 : scanAux none ('/' :: templData (s2 :: rest2)) =
            scanAux none (templData (s2 :: rest2)) := by simp [scanAux]
        rw [h2, ih hrest]
        simp [segNames]
      | param n =>
        rw [hjoin]
        have h2 : segChars (Seg.param n) ++ '/' :: templData (s2 :: rest2)
            = ':' :: (n.data ++ '/' :: templData (s2 :: rest2)) := by
          simp [segChars]
        rw [h2]
        have h3 : scanAux none (':' :: (n.data ++ '/' :: templData (s2 :: rest2)))
            = scanAux (some []) (n.data ++ '/' :: templData (s2 :: rest2)) := by
          simp [scanAux]
        rw [h3, scanAux_some_word n.data [] _ (paramWf_word hseg)]
        have h4 : (n.data.reverse ++ []).isEmpty = false := by
          simp [List.isEmpty_iff, paramWf_ne_nil hseg]
        simp only [scanAux, h4, Bool.false_eq_true, if_false]
        have h5 : wordChar '/' = false := by decide
        simp only [h5, Bool.false_eq_true, if_false]
        have h6 : (('/' : Char) == ':') = false := by decide
        simp only [h6, Bool.false_eq_true, if_false]
        rw [ih hrest]
        simp [segNames]

theorem getParamNames_templateOfSegs {segs : List Seg}
    (hwf : segsWfB segs = true) :
    getParamNames (templateOfSegs segs) = segNames segs := by
  have h0 : (templateOfSegs segs).data = templData segs := rfl
  rw [getParamNames, h0, scan_templData segs hwf, List.map_map]
  have : (String.mk ∘ String.data) = id := by
    funext x
    rfl
  rw [this, List.map_id]

theorem stringData_injective : Function.Injective String.data := by
  intro a b h
  cases a
  cases b
  exact congrArg String.mk h

theorem namesPFB_spec {names : List String} (h : namesPFB names = true) :
    ∀ a ∈ names, ∀ b ∈ names, a.data <+: b.data → a = b := by
  intro a ha b hb hab
  simp only [namesPFB, List.all_eq_true] at h
  have h2 := h a ha b hb
  simp only [Bool.or_eq_true, Bool.not_eq_true', beq_iff_eq] at h2
  rcases h2 with h1 | h1
  · rw [← List.isPrefixOf_iff_prefix] at hab
    rw [hab] at h1
    cases h1
  · exact h1

theorem segNames_word : ∀ segs : List Seg, segsWfB segs = true →
    ∀ n ∈ segNames segs, ∀ c ∈ n.data, wordChar c = true := by
  intro segs
  induction segs with
  | nil => intro _ n hn; exact absurd hn (List.not_mem_nil n)
  | cons seg rest ih =>
    intro hwf n hn
    obtain ⟨hseg, hrest⟩ := segsWfB_cons hwf
    cases seg with
    | lit s => exact ih hrest n (by simpa [segNames] using hn)
    | param m =>
      simp only [segNames, List.mem_cons] at hn
      rcases hn with h | h
      · subst h; exact paramWf_word hseg
      · exact ih hrest n h

theorem foldl_replace_data : ∀ (p : List (String × String)) (s : String),
    (p.foldl (fun acc kv => replaceFirst (":" ++ kv.1) (encodeURIComponent kv.2) acc) s).data
      = (p.map (fun kv => (kv.1.data, encodeL kv.2.data))).foldl
          (fun acc kv => replaceFirstL (':' :: kv.1) kv.2 acc) s.data := by
  intro p
  induction p with
  | nil => intro s; rfl
  | cons kv rest ih =>
    intro s
    rw [List.foldl_cons, List.map_cons, List.foldl_cons, ih]
    have hpat : (":" ++ kv.1).data = ':' :: kv.1.data := by
      rw [String.data_append]
      rfl
    have : (replaceFirst (":" ++ kv.1) (encodeURIComponent kv.2) s).data
        = replaceFirstL (':' :: kv.1.data) (encodeL kv.2.data) s.data := by
      rw [replaceFirst, hpat]
      rfl
    rw [this]

/-- C1 (amended): for a template made of `/`-separated segments in which each
segment is either a literal containing neither `:` nor `/` or a `:name`
parameter with a nonempty word-character name, where the parameter names are
pairwise distinct and none is a prefix of another, and for a parameter map
containing an entry for every extracted parameter name (in any order, extra
keys allowed), `buildPath` leaves no `:name` token for any key `name` of the
map. -/
theorem buildPath_no_remaining_token
    (segs : List Seg) (p : List (String × String))
    (hwf : segsWfB segs = true)
    (hnd : (segNames segs).Nodup)
    (hpf : namesPFB (segNames segs) = true)
    (hcov : ∀ n ∈ segNames segs, n ∈ p.map Prod.fst) :
    ∀ k ∈ p.map Prod.fst,
      containsSub (':' :: k.data) (buildPath (templateOfSegs segs) p).data
        = false := by
  intro k _
  have hpfL : ∀ a ∈ (segNames segs).map String.data,
      ∀ b ∈ (segNames segs).map String.data, a <+: b → a = b := by
    intro a ha b hb hab
    simp only [List.mem_map] at ha hb
    obtain ⟨a', ha', rfl⟩ := ha
    obtain ⟨b', hb', rfl⟩ := hb
    rw [namesPFB_spec hpf a' ha' b' hb' hab]
  have hNcf : ∀ w ∈ (segNames segs).map String.data, ∀ c ∈ w, c ≠ ':' := by
    intro w hw c hc
    simp only [List.mem_map] at hw
    obtain ⟨n, hn, rfl⟩ := hw
    exact wordChar_ne_colon (segNames_word segs hwf n hn c hc)
  have hvals : ∀ kv ∈ p.map (fun kv => (kv.1.data, encodeL kv.2.data)),
      ∀ c ∈ kv.2, c ≠ ':' := by
    intro kv hkv
    simp only [List.mem_map] at hkv
    obtain ⟨kv', _, rfl⟩ := hkv
    exact encodeL_colonFree kv'.2.data
  have hparams0 : ∀ w ∈ pieceParams (segsToPieces segs),
      w ∈ (segNames segs).map String.data := by
    rw [pieceParams_segsToPieces]
    exact fun w hw => hw
  have hnd0 : (pieceParams (segsToPieces segs)).Nodup := by
    rw [pieceParams_segsToPieces]
    exact hnd.map stringData_injective
  obtain ⟨qs, hq1, hq2, hq3, hq4⟩ :=
    foldl_replace_renderP_any hpfL hNcf
      (p.map (fun kv => (kv.1.data, encodeL kv.2.data))) (segsToPieces segs)
      (litsColonFree_segsToPieces segs hwf) hparams0 hnd0 hvals
  have hfold : (p.foldl
        (fun acc kv => replaceFirst (":" ++ kv.1) (encodeURIComponent kv.2) acc)
        (templateOfSegs segs)).data
      = renderP qs := by
    rw [foldl_replace_data]
    have h0 : (templateOfSegs segs).data = templData segs := rfl
    rw [h0, ← renderP_segsToPieces]
    exact hq1
  have hempty : pieceParams qs = [] := by
    rw [List.eq_nil_iff_forall_not_mem]
    intro m hm
    have hmNL : m ∈ (segNames segs).map String.data :=
      hparams0 m (hq3.subset hm)
    simp only [List.mem_map] at hmNL
    obtain ⟨n, hn, hmn⟩ := hmNL
    have hkmem := hcov n hn
    simp only [List.mem_map] at hkmem
    obtain ⟨kv', hkv', hk1⟩ := hkmem
    refine hq4 (kv'.1.data, encodeL kv'.2.data)
      (List.mem_map_of_mem _ hkv') ?_ ?_
    · rw [hk1, hmn]
      exact hparams0 m (hq3.subset hm)
    · rw [hk1, hmn]
      exact hm
  have hrd : ∀ c ∈ (p.foldl
      (fun acc kv => replaceFirst (":" ++ kv.1) (encodeURIComponent kv.2) acc)
      (templateOfSegs segs)).data, c ≠ ':' := by
    rw [hfold]
    exact renderP_colonFree qs hq2 hempty
  have hbp : ∀ c ∈ (buildPath (templateOfSegs segs) p).data, c ≠ ':' := by
    intro c hc
    rw [buildPath] at hc
    set r := p.foldl
      (fun acc kv => replaceFirst (":" ++ kv.1) (encodeURIComponent kv.2) acc)
      (templateOfSegs segs) with hr
    by_cases hsw : startsWithSlash r
    · rw [if_pos hsw] at hc
      exact hrd c hc
    · rw [if_neg hsw, String.data_append] at hc
      rcases List.mem_append.mp hc with h | h
      · have : c = '/' := by simpa using h
        subst this
        decide
      · exact hrd c h
  exact containsSub_colon_eq_false k.data _ hbp

/-- Witness for C1 at the documented example template and a parameter map
that also carries an extra key beyond the required names. -/
theorem buildPath_no_remaining_token_witness :
    containsSub (':' :: "userId".data)
      (buildPath
        (templateOfSegs [Seg.lit "users", Seg.param "userId", Seg.lit "posts",
          Seg.param "postId"])
        [("userId", "42"), ("extra", "zz"), ("postId", "7")]).data = false :=
  buildPath_no_remaining_token
    [Seg.lit "users", Seg.param "userId", Seg.lit "posts", Seg.param "postId"]
    [("userId", "42"), ("extra", "zz"), ("postId", "7")]
    (by decide) (by decide) (by decide) (by decide)
    "userId" (by decide)

/-- C1 counterexample: for the template `":a/:a"` and the map `{a ↦ "x"}`,
which contains an entry for every name in `getParamNames ":a/:a"`, the result
`"/x/:a"` still contains the token `":a"` for the key `"a"`. -/
theorem buildPath_remaining_token_cex :
    (∀ n ∈ getParamNames ":a/:a",
        n ∈ ([("a", "x")] : List (String × String)).map Prod.fst) ∧
    containsSub (':' :: "a".data) (buildPath ":a/:a" [("a", "x")]).data
      = true := by
  constructor
  · decide
  · decide

/-- C2 counterexample: `"toString"` is inherited from `Object.prototype`, so
for the template `"x/:toString"` and the empty map — which contains no entry
at all for the required name — `validateParams` still returns `true`,
refuting the claimed iff. -/
theorem validateParams_proto_cex :
    getParamNames "x/:toString" = ["toString"] ∧
    ([] : List (String × JsValue)).lookup "toString" = none ∧
    validateParams "x/:toString" ([] : List (String × JsValue)) = true := by
  refine ⟨?_, ?_, ?_⟩
  · decide
  · rfl
  · decide

/-- C2 (amended): `validateParams t p` is true iff every name extracted from
`t` either has a non-null, non-undefined own entry in `p`, or has no own
entry and is one of the property names inherited from `Object.prototype`
(whose inherited values are never null/undefined).  Extra keys of `p` beyond
the required set never cause a false result, and the function is total — on
failure it returns `false` rather than raising. -/
theorem validateParams_iff (t : String) (p : List (String × JsValue)) :
    validateParams t p = true ↔
      ∀ name ∈ getParamNames t,
        (∃ v, p.lookup name = some v ∧
          v ≠ JsValue.undef ∧ v ≠ JsValue.null) ∨
        (p.lookup name = none ∧ name ∈ objectProtoProps) := by
  rw [validateParams, List.all_eq_true]
  constructor
  · intro h name hn
    have h2 := h name hn
    cases hl : p.lookup name with
    | none =>
      rw [hl] at h2
      exact Or.inr ⟨rfl, List.elem_iff.mp h2⟩
    | some v =>
      rw [hl] at h2
      simp only [Bool.and_eq_true, Bool.not_eq_true', beq_eq_false_iff_ne] at h2
      exact Or.inl ⟨v, rfl, h2.1, h2.2⟩
  · intro h name hn
    rcases h name hn with ⟨v, hv, h1, h2⟩ | ⟨hv, hmem⟩
    · rw [hv]
      simp only [Bool.and_eq_true, Bool.not_eq_true', beq_eq_false_iff_ne]
      exact ⟨h1, h2⟩
    · rw [hv]
      exact List.elem_iff.mpr hmem

/-! ### The split-based description versus the regex scanner -/

theorem splitSlash_noSlash : ∀ s : List Char, (∀ c ∈ s, c ≠ '/') →
    splitSlash s = [s] := by
  intro s
  induction s with
  | nil => intro _; rfl
  | cons c cs ih =>
    intro h
    have hc : (c == '/') = false := by
      simp only [beq_eq_false_iff_ne, ne_eq]
      exact h c (List.mem_cons_self c cs)
    simp only [splitSlash, hc, Bool.false_eq_true, if_false]
    rw [ih fun x hx => h x (List.mem_cons_of_mem c hx)]

theorem splitSlash_chunk : ∀ (s t : List Char), (∀ c ∈ s, c ≠ '/') →
    splitSlash (s ++ '/' :: t) = s :: splitSlash t := by
  intro s
  induction s with
  | nil => intro t _; simp [splitSlash]
  | cons c cs ih =>
    intro t h
    have hc : (c == '/') = false := by
      simp only [beq_eq_false_iff_ne, ne_eq]
      exact h c (List.mem_cons_self c cs)
    simp only [List.cons_append, splitSlash, hc, Bool.false_eq_true, if_false,
      List.append_eq]
    rw [ih t fun x hx => h x (List.mem_cons_of_mem c hx)]

theorem segChars_noSlash {seg : Seg} (h : segWfB seg = true) :
    ∀ c ∈ segChars seg, c ≠ '/' := by
  cases seg with
  | lit s => exact litWf_slashFree h
  | param n =>
    intro c hc
    simp only [segChars, List.mem_cons] at hc
    rcases hc with h1 | h1
    · subst h1; decide
    · exact wordChar_ne_slash (paramWf_word h c h1)

theorem segExtract_lit {s : String} (h : segWfB (Seg.lit s) = true) :
    segExtract (segChars (Seg.lit s)) = none := by
  cases hd : s.data with
  | nil => simp [segChars, hd, segExtract]
  | cons c cs =>
    have hc' : (c == ':') = false := by
      simp only [beq_eq_false_iff_ne, ne_eq]
      exact litWf_colonFree h c (by rw [hd]; exact List.mem_cons_self c cs)
    simp [segChars, hd, segExtract, hc']

theorem segExtract_param (n : String) :
    segExtract (segChars (Seg.param n)) = some n := by
  simp [segChars, segExtract]

theorem splitExtract_segments : ∀ segs : List Seg, segsWfB segs = true →
    splitExtract (templateOfSegs segs) = segNames segs := by
  intro segs
  induction segs with
  | nil => intro _; rfl
  | cons seg rest ih =>
    intro hwf
    obtain ⟨hseg, hrest⟩ := segsWfB_cons hwf
    cases rest with
    | nil =>
      have h0 : (templateOfSegs [seg]).data = segChars seg ++ [] := by
        simp [templateOfSegs, templData, joinSlash]
      rw [splitExtract, h0, List.append_nil,
        splitSlash_noSlash (segChars seg) (segChars_noSlash hseg)]
      cases seg with
      | lit s => simp [List.filterMap, segExtract_lit hseg, segNames]
      | param n => simp [List.filterMap, segExtract_param, segNames]
    | cons s2 rest2 =>
      have h0 : (templateOfSegs (seg :: s2 :: rest2)).data
          = segChars seg ++ '/' :: (templateOfSegs (s2 :: rest2)).data := by
        simp [templateOfSegs, templData, joinSlash]
      rw [splitExtract, h0,
        splitSlash_chunk (segChars seg) _ (segChars_noSlash hseg),
        List.filterMap_cons]
      have ih2 := ih hrest
      rw [splitExtract] at ih2
      cases seg with
      | lit s => simp [segExtract_lit hseg, segNames, ih2]
      | param n => simp [segExtract_param, segNames, ih2]

/-- C3 counterexample: on the template `"a:b"`, whose single segment does not
start with `:`, the runtime extraction still yields `["b"]`, so it does not
implement the split-based description. -/
theorem getParamNames_split_cex :
    getParamNames "a:b" = ["b"] ∧ splitExtract "a:b" = [] := by
  constructor
  · decide
  · decide

/-- C3 (amended): the runtime extraction yields the maximal nonempty
word-character run following each `:`, in left-to-right order; on templates
made of well-formed `/`-separated segments this coincides with the split-based
description (both yield the parameter segment names in order), and the
documented example yields `["userId", "postId"]`. -/
theorem getParamNames_segments (segs : List Seg) (hwf : segsWfB segs = true) :
    getParamNames (templateOfSegs segs) = segNames segs ∧
    splitExtract (templateOfSegs segs) = segNames segs ∧
    getParamNames "users/:userId/posts/:postId" = ["userId", "postId"] :=
  ⟨getParamNames_templateOfSegs hwf, splitExtract_segments segs hwf, by decide⟩

/-- Witness for C3 at the documented example template. -/
theorem getParamNames_segments_witness :
    getParamNames
      (templateOfSegs [Seg.lit "users", Seg.param "userId", Seg.lit "posts",
        Seg.param "postId"]) = ["userId", "postId"] :=
  ((getParamNames_segments
    [Seg.lit "users", Seg.param "userId", Seg.lit "posts", Seg.param "postId"]
    (by decide)).1).trans (by decide)

/-- C4 counterexample: the template `":"` consists of a segment that is
exactly `:`, yet extraction yields no parameter name at all — in particular
not the empty-string name required by the claim (the split-based description
would yield `[""]`). -/
theorem emptyName_cex : getParamNames ":" = [] ∧ splitExtract ":" = [""] := by
  constructor
  · decide
  · decide

theorem scanAux_no_empty : ∀ (s : List Char) (st : Option (List Char)),
    ∀ w ∈ scanAux st s, w ≠ [] := by
  intro s
  induction s with
  | nil =>
    intro st w hw
    match st with
    | none => exact absurd hw (List.not_mem_nil w)
    | some acc =>
      by_cases h : acc.isEmpty
      · rw [scanAux, if_pos h] at hw
        exact absurd hw (List.not_mem_nil w)
      · rw [scanAux, if_neg h] at hw
        have hacc : acc ≠ [] := by
          intro h2
          subst h2
          exact h rfl
        have hw2 : w = acc.reverse := by simpa using hw
        subst hw2
        simpa using hacc
  | cons c cs ih =>
    intro st w hw
    match st with
    | none =>
      rw [scanAux] at hw
      split at hw
      · exact ih _ w hw
      · exact ih _ w hw
    | some acc =>
      rw [scanAux] at hw
      split at hw
      · exact ih _ w hw
      · split at hw
        · exact ih _ w hw
        · rcases List.mem_cons.mp hw with h | h
          · have hacc : acc ≠ [] := by
              intro h2
              subst h2
              simp_all
            subst h
            simpa using hacc
          · exact ih _ w h

/-- C4 (amended): a segment that is exactly `:` yields no parameter name — it
is skipped by the extraction, which never produces an empty-string parameter
name for any template. -/
theorem getParamNames_no_empty (t : String) :
    getParamNames ":" = [] ∧
    ((getParamNames t).all fun n => !(n == "")) = true := by
  refine ⟨rfl, ?_⟩
  rw [List.all_eq_true]
  intro n hn
  simp only [getParamNames, List.mem_map] at hn
  obtain ⟨w, hw, rfl⟩ := hn
  have hne : w ≠ [] := scanAux_no_empty t.data none w hw
  simp only [Bool.not_eq_true', beq_eq_false_iff_ne, ne_eq]
  intro heq
  exact hne (congrArg String.data heq)

/-! ### buildUrl versus the spec's description of the query string -/

/-- Modelled from the spec: the query pairs described for `buildUrl` — null
and undefined entries are skipped; ordered-sequence values contribute one pair
per element under the same key, preserving element order; scalar values
contribute a single pair carrying the value's string form.  (The keys of a JS
object literal are distinct, so the overwrite rule for repeated scalar keys
never fires.) -/
def specQueryPairs (qps : List (String × QueryVal)) : List (String × String) :=
  qps.flatMap fun kv =>
    match kv.2 with
    | QueryVal.null => []
    | QueryVal.undef => []
    | QueryVal.arr vs => vs.map fun v => (kv.1, v)
    | v => [(kv.1, scalarString v)]

theorem uspSet_not_mem : ∀ (pairs : List (String × String)) (k v : String),
    (∀ q ∈ pairs, q.1 ≠ k) → uspSet pairs k v = pairs ++ [(k, v)] := by
  intro pairs
  induction pairs with
  | nil => intro k v _; rfl
  | cons p rest ih =>
    intro k v h
    have hp : (p.1 == k) = false := by
      simp only [beq_eq_false_iff_ne, ne_eq]
      exact h p (List.mem_cons_self p rest)
    rw [uspSet, if_neg (by simp [hp]), ih k v
      fun q hq => h q (List.mem_cons_of_mem p hq)]
    rfl

theorem foldl_append_pairs : ∀ (vs : List String) (k : String)
    (acc : List (String × String)),
    vs.foldl (fun a v => a ++ [(k, v)]) acc = acc ++ vs.map fun v => (k, v) := by
  intro vs
  induction vs with
  | nil => intro k acc; simp
  | cons v vs ih => intro k acc; simp [ih]

theorem specQueryPairs_cons (k : String) (v : QueryVal)
    (rest : List (String × QueryVal)) :
    specQueryPairs ((k, v) :: rest)
      = (match v with
        | QueryVal.null => []
        | QueryVal.undef => []
        | QueryVal.arr vs => vs.map fun x => (k, x)
        | v => [(k, scalarString v)]) ++ specQueryPairs rest := by
  simp [specQueryPairs]

theorem buildUrl_fold_spec : ∀ (qps : List (String × QueryVal))
    (acc : List (String × String)),
    (qps.map Prod.fst).Nodup →
    (∀ kv ∈ qps, ∀ q ∈ acc, q.1 ≠ kv.1) →
    qps.foldl uspStep acc = acc ++ specQueryPairs qps := by
  intro qps
  induction qps with
  | nil => intro acc _ _; simp [specQueryPairs]
  | cons kv rest ih =>
    obtain ⟨k0, v0⟩ := kv
    intro acc hnd hdisj
    have hnd2 : (∀ x : QueryVal, (k0, x) ∉ rest) ∧ (rest.map Prod.fst).Nodup := by
      simpa [List.nodup_cons] using hnd
    have hnd' := hnd2.2
    have hkv_rest : ∀ kv' ∈ rest, kv'.1 ≠ k0 := by
      intro kv' h' heq
      refine hnd2.1 kv'.2 ?_
      rw [← heq]
      exact h'
    have hdisj' : ∀ kv' ∈ rest, ∀ q ∈ acc, q.1 ≠ kv'.1 :=
      fun kv' h' q hq => hdisj kv' (List.mem_cons_of_mem (k0, v0) h') q hq
    rw [List.foldl_cons, specQueryPairs_cons]
    cases v0 with
    | null =>
      rw [show uspStep acc (k0, QueryVal.null) = acc from rfl,
        ih acc hnd' hdisj']
      rfl
    | undef =>
      rw [show uspStep acc (k0, QueryVal.undef) = acc from rfl,
        ih acc hnd' hdisj']
      rfl
    | arr vs =>
      rw [show uspStep acc (k0, QueryVal.arr vs)
          = vs.foldl (fun a v => a ++ [(k0, v)]) acc from rfl,
        foldl_append_pairs vs k0 acc]
      rw [ih (acc ++ vs.map fun v => (k0, v)) hnd' ?_, List.append_assoc]
      intro kv' h' q hq
      rcases List.mem_append.mp hq with h1 | h1
      · exact hdisj' kv' h' q h1
      · obtain ⟨v, _, rfl⟩ := List.mem_map.mp h1
        exact fun heq => hkv_rest kv' h' heq.symm
    | str s =>
      rw [show uspStep acc (k0, QueryVal.str s)
          = uspSet acc k0 (scalarString (QueryVal.str s)) from rfl,
        uspSet_not_mem acc k0 _ fun q hq =>
          hdisj (k0, QueryVal.str s) (List.mem_cons_self _ rest) q hq]
      rw [ih (acc ++ [(k0, scalarString (QueryVal.str s))]) hnd' ?_,
        List.append_assoc]
      intro kv' h' q hq
      rcases List.mem_append.mp hq with h1 | h1
      · exact hdisj' kv' h' q h1
      · have hq1 : q = (k0, scalarString (QueryVal.str s)) := by simpa using h1
        subst hq1
        exact fun heq => hkv_rest kv' h' heq.symm
    | num n =>
      rw [show uspStep acc (k0, QueryVal.num n)
          = uspSet acc k0 (scalarString (QueryVal.num n)) from rfl,
        uspSet_not_mem acc k0 _ fun q hq =>
          hdisj (k0, QueryVal.num n) (List.mem_cons_self _ rest) q hq]
      rw [ih (acc ++ [(k0, scalarString (QueryVal.num n))]) hnd' ?_,
        List.append_assoc]
      intro kv' h' q hq
      rcases List.mem_append.mp hq with h1 | h1
      · exact hdisj' kv' h' q h1
      · have hq1 : q = (k0, scalarString (QueryVal.num n)) := by simpa using h1
        subst hq1
        exact fun heq => hkv_rest kv' h' heq.symm
    | bool b =>
      rw [show uspStep acc (k0, QueryVal.bool b)
          = uspSet acc k0 (scalarString (QueryVal.bool b)) from rfl,
        uspSet_not_mem acc k0 _ fun q hq =>
          hdisj (k0, QueryVal.bool b) (List.mem_cons_self _ rest) q hq]
      rw [ih (acc ++ [(k0, scalarString (QueryVal.bool b))]) hnd' ?_,
        List.append_assoc]
      intro kv' h' q hq
      rcases List.mem_append.mp hq with h1 | h1
      · exact hdisj' kv' h' q h1
      · have hq1 : q = (k0, scalarString (QueryVal.bool b)) := by simpa using h1
        subst hq1
        exact fun heq => hkv_rest kv' h' heq.symm

/-- C5: `buildUrl(t, p, q)` equals `buildPath(t, p)` with an appended
`?`-prefixed query string assembled as the spec describes — null/undefined
entries skipped, one entry per array element under the same key in order,
scalar values by their string form — with no `?` suffix when the query string
is empty; and the two documented examples hold. -/
theorem buildUrl_spec :
    (∀ (t : String) (p : List (String × String)) (q : List (String × QueryVal)),
      (q.map Prod.fst).Nodup →
      buildUrl t p (some q)
        = if uspToString (specQueryPairs q) = "" then buildPath t p
          else buildPath t p ++ "?" ++ uspToString (specQueryPairs q)) ∧
    buildUrl "users/:userId" [("userId", "42")]
      (some [("tab", QueryVal.str "posts")]) = "/users/42?tab=posts" ∧
    buildUrl "search" [] (some [("tag", QueryVal.arr ["a", "b"])])
      = "/search?tag=a&tag=b" := by
  refine ⟨?_, by decide, by decide⟩
  intro t p q hnd
  rw [buildUrl]
  rw [buildUrl_fold_spec q [] hnd fun kv _ q' hq' => absurd hq' (List.not_mem_nil q'),
    List.nil_append]
  cases hd : (uspToString (specQueryPairs q)).data with
  | nil =>
    have hq0 : uspToString (specQueryPairs q) = "" :=
      stringData_injective (by rw [hd])
    rw [if_pos hq0]
  | cons c cs =>
    have hq0 : uspToString (specQueryPairs q) ≠ "" := by
      intro h
      rw [h] at hd
      cases hd
    rw [if_neg hq0]

/-- Witness for C5: a query map exercising the null-skip, the array expansion
and a scalar entry at once. -/
theorem buildUrl_spec_witness :
    buildUrl "search" []
      (some [("skipme", QueryVal.null), ("tag", QueryVal.arr ["x", "y"]),
        ("page", QueryVal.num 2)])
      = "/search?tag=x&tag=y&page=2" :=
  (buildUrl_spec.1 "search" []
    [("skipme", QueryVal.null), ("tag", QueryVal.arr ["x", "y"]),
      ("page", QueryVal.num 2)]
    (by decide)).trans (by decide)

/-- C6: `isActive` matches the current path (query string and fragment
stripped) against the pattern `"/" ++ template` with every `:name` token
replaced by a wildcard for one or more non-`/` characters, anchored at the
start, and additionally at the end when `exact` is true: the three documented
examples. -/
theorem isActive_examples :
    isActive "users/:userId" "/users/42?x=1" false = true ∧
    isActive "users/:userId" "/users/42/edit" true = false ∧
    isActive "users/:userId" "/users/42/edit" false = true := by
  refine ⟨?_, ?_, ?_⟩
  · decide
  · decide
  · decide

/-- C7: the route-tree index builder on the documented example tree registers
exactly the two claimed full paths, in declaration order, and the root
sentinel `"/"` is used for a top-level empty path. -/
theorem buildPathsMap_example :
    buildPathsMap
      (RouteForest.cons
        (RouteNode.mk (some "products/:categoryId")
          (some (RouteForest.cons (RouteNode.mk (some ":productId") none)
            RouteForest.nil)))
        RouteForest.nil)
      = ["products/:categoryId", "products/:categoryId/:productId"] ∧
    buildPathsMap (RouteForest.cons (RouteNode.mk (some "") none) RouteForest.nil)
      = ["/"] := by
  refine ⟨?_, ?_⟩
  · decide
  · decide

/-- C8 counterexample: with prefix `"a"` and empty segment the runtime
concatenation of the index builder yields `"a/"`, the join rule yields `"a"`,
and the trailing slash survives normalization — so the two do not agree on
every pair. -/
theorem joins_agree_cex :
    runtimeJoin "a" "" = "a/" ∧ joinSegments "a" "" = "a" ∧
    runtimeJoin "a" "" ≠ joinSegments "a" "" ∧
    normalizePath (runtimeJoin "a" "") = "a/" := by
  refine ⟨?_, ?_, ?_, ?_⟩
  · decide
  · decide
  · decide
  · decide

/-- C8 (amended): the type-level `JoinPath` computes exactly the
`joinSegments` rule; the runtime concatenation of the index builder computes
the same result whenever the appended segment is nonempty or the prefix is
empty, and yields `prefix ++ "/"` (kept by normalization) when the prefix is
nonempty and the segment empty. -/
theorem joins_agree :
    (∀ a b : String, joinPathTy a b = joinSegments a b) ∧
    (∀ a b : String, b ≠ "" ∨ a = "" → runtimeJoin a b = joinSegments a b) ∧
    (∀ a : String, a ≠ "" → runtimeJoin a "" = a ++ "/") := by
  refine ⟨fun a b => rfl, ?_, ?_⟩
  · intro a b h
    by_cases ha : a = ""
    · subst ha
      simp [runtimeJoin, joinSegments]
    · have hb : b ≠ "" := by
        rcases h with h | h
        · exact h
        · exact absurd h ha
      simp [runtimeJoin, joinSegments, ha, hb]
  · intro a ha
    simp [runtimeJoin, ha]

/-- Witness for C8 at a nonempty prefix and a nonempty segment. -/
theorem joins_agree_witness :
    runtimeJoin "products" ":productId" = joinSegments "products" ":productId" :=
  joins_agree.2.1 "products" ":productId" (Or.inl (by decide))

theorem containsSub_mid : ∀ (pre pat suf : List Char),
    containsSub pat (pre ++ (pat ++ suf)) = true := by
  intro pre
  induction pre with
  | nil =>
    intro pat suf
    cases pat with
    | nil =>
      cases suf with
      | nil => rfl
      | cons c cs => simp [containsSub, List.isPrefixOf]
    | cons p ps =>
      have hp : (p :: ps).isPrefixOf ((p :: ps) ++ suf) = true := by
        rw [List.isPrefixOf_iff_prefix]
        exact List.prefix_append (p :: ps) suf
      simp only [List.nil_append, List.cons_append, containsSub, List.append_eq]
      rw [show p :: (ps ++ suf) = (p :: ps) ++ suf from rfl, hp]
      rfl
  | cons c pre' ih =>
    intro pat suf
    simp [containsSub, ih pat suf]

/-- C9: only the "required" single-parameter accessors raise: on a missing
parameter both raise synchronously an error whose message carries the missing
parameter's name, while the corresponding optional accessors return the
null/undefined sentinel; on a present parameter all four return the value. -/
theorem requiredParam_error_spec (pm : List (String × String)) (param : String) :
    (pm.lookup param = none →
      getRequiredTypedParam pm param = Except.error (requiredParamMsg param) ∧
      paramSnapshotRequired pm param = Except.error (requiredParamMsg param) ∧
      getTypedParam pm param = none ∧ paramSnapshot pm param = none) ∧
    (∀ v, pm.lookup param = some v →
      getRequiredTypedParam pm param = Except.ok v ∧
      paramSnapshotRequired pm param = Except.ok v ∧
      getTypedParam pm param = some v ∧ paramSnapshot pm param = some v) ∧
    containsSub param.data (requiredParamMsg param).data = true := by
  refine ⟨?_, ?_, ?_⟩
  · intro h
    refine ⟨?_, ?_, h, h⟩
    · rw [getRequiredTypedParam, h]
    · rw [paramSnapshotRequired, h]
  · intro v h
    refine ⟨?_, ?_, h, h⟩
    · rw [getRequiredTypedParam, h]
    · rw [paramSnapshotRequired, h]
  · have hmsg : (requiredParamMsg param).data
        = "Required route parameter \"".data ++ (param.data ++ "\" is missing".data) := by
      rw [requiredParamMsg, String.data_append, String.data_append,
        List.append_assoc]
    rw [hmsg]
    exact containsSub_mid _ param.data _

/-- Witness for C9: a missing parameter makes the required accessor raise an
error carrying the parameter name while the optional accessor returns the
sentinel. -/
theorem requiredParam_error_spec_witness :
    getRequiredTypedParam [("userId", "42")] "postId"
        = Except.error (requiredParamMsg "postId") ∧
    getTypedParam [("userId", "42")] "postId" = none ∧
    containsSub "postId".data (requiredParamMsg "postId").data = true :=
  ⟨((requiredParam_error_spec [("userId", "42")] "postId").1 (by decide)).1,
   ((requiredParam_error_spec [("userId", "42")] "postId").1 (by decide)).2.2.1,
   (requiredParam_error_spec [("userId", "42")] "postId").2.2⟩

/-- C10: an exact `isActive` match is always also a non-exact (prefix) match,
for every template and every current URL. -/
theorem isActive_exact_imp (tpl url : String)
    (h : isActive tpl url true = true) : isActive tpl url false = true := by
  simp only [isActive, if_true, if_false, Bool.false_eq_true] at h ⊢
  rw [matchToksAtStart, List.any_eq_true]
  refine ⟨(stripAfter '#' (stripAfter '?' url.data)).length, ?_, ?_⟩
  · exact List.mem_range.mpr (Nat.lt_succ_self _)
  · rw [List.take_length]
    exact h

/-- Witness for C10 at the documented template and a matching URL. -/
theorem isActive_exact_imp_witness :
    isActive "users/:userId" "/users/42" false = true :=
  isActive_exact_imp "users/:userId" "/users/42" (by decide)

end TypesafeRoutes
